import Mathlib

/-!
Verification of the per-user scheduled check-in engine of the `arjun-birthday`
repository (`bot.py`, `llm_handler.py`), shallowly embedded in Lean.

Conventions of the embedding:
* wall-clock instants are seconds since the Unix epoch (`Nat`); stored
  `datetime.isoformat()` timestamps are modelled directly as the instant
  (Python's `fromisoformat`/`isoformat` are mutually inverse on the values
  the program writes);
* Python `float` probabilities and `random.random()` samples are modelled
  as `Rat`; the random draw is an explicit parameter of each evaluation;
* network effects (`fetch_user`/`send`) are modelled by a boolean parameter
  telling whether the call succeeds or raises `discord.NotFound`;
* exceptions caught by the per-user `try`/`except` blocks are modelled as
  explicit outcome values.
-/

namespace ArjunBot

/-- Seconds since the Unix epoch, UTC. -/
abbrev Instant := Nat

/-- Per-user configuration dictionary (`self.default_config` lists its keys).
Hours and the interval are Python ints (only non-negative values are ever
stored, so `Nat`); the probability is a Python float, modelled as `Rat`. -/
structure UserConfig where
  morning_check_hour : Nat
  evening_review_hour : Nat
  weekly_review_day : String
  weekly_review_hour : Nat
  activity_check_interval : Nat
  activity_check_probability : Rat
  timezone : String
  clockify_api_key : Option String
  clockify_enabled : Bool
  deriving DecidableEq, Repr

/-- Per-user record as created by `add_user` in `bot.py`. -/
structure UserRecord where
  joined_date : Instant
  weekly_plans : List String
  daily_logs : List String
  last_interaction : Option Instant
  last_activity_check : Option Instant
  config : UserConfig
  deriving DecidableEq, Repr

/-- `self.default_config` from `ArjunBot.__init__`. -/
def default_config : UserConfig :=
  { morning_check_hour := 9
    evening_review_hour := 21
    weekly_review_day := "SUNDAY"
    weekly_review_hour := 18
    activity_check_interval := 30
    activity_check_probability := 3/10
    timezone := "UTC"
    clockify_api_key := none
    clockify_enabled := false }

/-- The record `add_user` stores for a fresh user: empty logs and plans, no
timestamps, and `self.default_config.copy()` — an independent copy whose
value is the process-wide default. -/
def fresh_record (t : Instant) : UserRecord :=
  { joined_date := t
    weekly_plans := []
    daily_logs := []
    last_interaction := none
    last_activity_check := none
    config := default_config }

/-- The in-memory `self.user_data` mapping, a Python dict keyed by the
string user id; modelled as an insertion-ordered association list (a dict
holds at most one entry per key, and the code only ever inserts fresh keys,
overwrites values in place, or deletes keys). -/
abbrev Store := List (String × UserRecord)

/-- Model of the expression `datetime.timezone(config["timezone"])` as the
scheduled checks in `bot.py` evaluate it, returning the UTC offset in
seconds on success.  Python's `datetime.timezone` constructor accepts only a
`datetime.timedelta` offset; applied to the stored timezone *string* (as on
every call site in `bot.py`, including the `/set_timezone` validator) it
raises `TypeError` for every input, so as an offset-producing function it
never succeeds. -/
def datetimeTimezone (_tzName : String) : Option Int := none

/-- Hour-of-day field of an instant shifted by a UTC offset in seconds
(`datetime.now(tz).hour`). -/
def hour_at (t : Instant) (offSec : Int) : Int :=
  (((t : Int) + offSec).ediv 3600).emod 24

/-- Minute field of an instant shifted by a UTC offset in seconds
(`datetime.now(tz).minute`). -/
def minute_at (t : Instant) (offSec : Int) : Int :=
  (((t : Int) + offSec).ediv 60).emod 60

/-- Weekday field, Monday = 0 (`datetime.now(tz).weekday()`); day 0 of the
epoch (1970-01-01) was a Thursday, weekday 3. -/
def weekday_at (t : Instant) (offSec : Int) : Int :=
  ((((t : Int) + offSec).ediv 86400) + 3).emod 7

/-- Modelled from the spec (for comparison with the code): the daily
fixed-hour fire predicate "fires when `now.hour == configured_hour and
now.minute == 0`", with `now` taken in the user's zone; for the UTC scenario
the offset is 0. -/
def spec_daily_fire_utc (configuredHour : Nat) (t : Instant) : Bool :=
  hour_at t 0 == (configuredHour : Int) && minute_at t 0 == 0

/-- Modelled from the spec (for comparison with the code): the weekly
fixed-day-and-hour fire predicate, `now` in the user's zone (UTC here). -/
def spec_weekly_fire_utc (configuredDay configuredHour : Nat) (t : Instant) : Bool :=
  weekday_at t 0 == (configuredDay : Int) &&
    hour_at t 0 == (configuredHour : Int) && minute_at t 0 == 0

/-- Result of one user's evaluation inside a scheduled tick.  Every branch
of the loop body is wrapped in `try`/`except`, so each outcome is a normal
value: `errorSkipped` is the generic `except Exception` branch (logged and
skipped), `userNotFound` the `except discord.NotFound` branch, `notFired`
a pass through the predicate without dispatch, `sent` a dispatched
message. -/
inductive CheckOutcome where
  | errorSkipped
  | notFired
  | userNotFound
  | sent
  deriving DecidableEq, Repr

/-- Loop body of `morning_check` for one user: build the timezone (a
`TypeError` lands in the generic except branch), compare hour and minute of
the user-local time with the configured morning hour, and on a match fetch
the user and send one of the morning messages. -/
def morning_check_user (r : UserRecord) (t : Instant) (fetchOk : Bool) : CheckOutcome :=
  match datetimeTimezone r.config.timezone with
  | none => .errorSkipped
  | some off =>
      if hour_at t off == (r.config.morning_check_hour : Int) && minute_at t off == 0 then
        if fetchOk then .sent else .userNotFound
      else .notFired

/-- Loop body of `evening_review` for one user; identical to the morning
check with the evening hour. -/
def evening_review_user (r : UserRecord) (t : Instant) (fetchOk : Bool) : CheckOutcome :=
  match datetimeTimezone r.config.timezone with
  | none => .errorSkipped
  | some off =>
      if hour_at t off == (r.config.evening_review_hour : Int) && minute_at t off == 0 then
        if fetchOk then .sent else .userNotFound
      else .notFired

/-- The `day_map` dict of `weekly_review_check`; a key outside the seven
three-letter names raises `KeyError` (caught by the generic except). -/
def day_map (day : String) : Option Nat :=
  match day with
  | "MON" => some 0
  | "TUE" => some 1
  | "WED" => some 2
  | "THU" => some 3
  | "FRI" => some 4
  | "SAT" => some 5
  | "SUN" => some 6
  | _ => none

/-- Loop body of `weekly_review_check` for one user: timezone construction,
then `day_map[config["weekly_review_day"]]` (a `KeyError` lands in the
generic except branch), then the weekday/hour/minute comparison and
dispatch. -/
def weekly_review_check_user (r : UserRecord) (t : Instant) (fetchOk : Bool) : CheckOutcome :=
  match datetimeTimezone r.config.timezone with
  | none => .errorSkipped
  | some off =>
      match day_map r.config.weekly_review_day with
      | none => .errorSkipped
      | some d =>
          if weekday_at t off == (d : Int) &&
              hour_at t off == (r.config.weekly_review_hour : Int) && minute_at t off == 0 then
            if fetchOk then .sent else .userNotFound
          else .notFired

/-- One `morning_check` tick: the loop over `self.user_data.items()`, each
iteration fully guarded by its own `try`/`except`, so the tick is a total
map over the entries.  `fetchOk` tells, per user id, whether
`fetch_user`/`send` succeeds. -/
def morning_check (store : Store) (t : Instant) (fetchOk : String → Bool) :
    List (String × CheckOutcome) :=
  store.map (fun p => (p.1, morning_check_user p.2 t (fetchOk p.1)))

/-- One `evening_review` tick. -/
def evening_review (store : Store) (t : Instant) (fetchOk : String → Bool) :
    List (String × CheckOutcome) :=
  store.map (fun p => (p.1, evening_review_user p.2 t (fetchOk p.1)))

/-- One `weekly_review_check` tick. -/
def weekly_review_check (store : Store) (t : Instant) (fetchOk : String → Bool) :
    List (String × CheckOutcome) :=
  store.map (fun p => (p.1, weekly_review_check_user p.2 t (fetchOk p.1)))

/-- The due test of `activity_check`: `last_activity_check` missing/None, or
`(current_time - last_check).total_seconds() >= config["activity_check_interval"] * 60`. -/
def activity_due (r : UserRecord) (t : Instant) : Bool :=
  match r.last_activity_check with
  | none => true
  | some last =>
      decide ((r.config.activity_check_interval : Int) * 60 ≤ (t : Int) - (last : Int))

/-- Result of one user's `activity_check` evaluation: the record afterwards,
the dispatch outcome, and whether `save_data` ran for this user. -/
structure ActivityResult where
  record : UserRecord
  outcome : CheckOutcome
  saved : Bool
  deriving DecidableEq, Repr

/-- Loop body of `activity_check` for one user.  When due, the sampled
`random.random()` value is compared against the user's probability; a
dispatch is attempted only when `sample < probability`.  The
`last_activity_check` update and `save_data` sit *after* the dispatch inside
the same `try` block, so a `discord.NotFound` raised by the dispatch jumps
to the except branch before the update runs. -/
def activity_check_user (r : UserRecord) (t : Instant) (sample : Rat) (fetchOk : Bool) :
    ActivityResult :=
  if activity_due r t then
    if sample < r.config.activity_check_probability then
      if fetchOk then
        ⟨{ r with last_activity_check := some t }, .sent, true⟩
      else
        ⟨r, .userNotFound, false⟩
    else
      ⟨{ r with last_activity_check := some t }, .notFired, true⟩
  else
    ⟨r, .notFired, false⟩

/-- One `activity_check` tick over the store: each user evaluated with its
own sample and dispatch outcome; each iteration writes back only
`self.user_data[user_id]`. -/
def activity_check (store : Store) (t : Instant)
    (sample : String → Rat) (fetchOk : String → Bool) : Store :=
  store.map (fun p => (p.1, (activity_check_user p.2 t (sample p.1) (fetchOk p.1)).record))

/-- `add_user`: insert a fresh record only when the id is not yet tracked
(dict insertion appends a new key at the end). -/
def add_user (store : Store) (uid : String) (t : Instant) : Store :=
  if (store.lookup uid).isSome then store else store ++ [(uid, fresh_record t)]

/-- The `/stop` command's effect on the store: `del self.user_data[user_id]`
when the id is tracked, else nothing. -/
def stop (store : Store) (uid : String) : Store :=
  if (store.lookup uid).isSome then
    store.filter (fun p => decide (p.1 ≠ uid))
  else store

/-! ### Conversation routing: sentinel markers and the LLM memory store

The inbound-reply path is `on_message` in `bot.py`; the memory store and
`_process_memory_instructions` live in `llm_handler.py`.  Response texts are
modelled as `List Char`, with faithful models of the Python `str` methods
the code uses (`find`, slicing, `replace`, `strip`). -/

/-- First index at or after which `pat` occurs in `s` (Python `str.find`,
with `none` for the `-1` "not found" result). -/
def findIdx (pat : List Char) : List Char → Option Nat
  | [] => if pat.isEmpty then some 0 else none
  | c :: rest =>
      if pat.isPrefixOf (c :: rest) then some 0
      else (findIdx pat rest).map (· + 1)

/-- Python `s.find(pat, start)`. -/
def pyFind (s pat : List Char) (start : Nat) : Option Nat :=
  (findIdx pat (s.drop start)).map (· + start)

/-- Python substring containment, `pat in s`. -/
def containsSub (s pat : List Char) : Bool :=
  (pyFind s pat 0).isSome

/-- Python slice `s[a:b]` for non-negative bounds. -/
def pySlice (s : List Char) (a b : Nat) : List Char :=
  (s.take b).drop a

/-- Characters Python `str.strip()` removes. -/
def isPySpace (c : Char) : Bool :=
  c == ' ' || c == '\t' || c == '\n' || c == '\r' || c == '\x0b' || c == '\x0c'

/-- Python `s.strip()`. -/
def pyStrip (s : List Char) : List Char :=
  ((s.dropWhile isPySpace).reverse.dropWhile isPySpace).reverse

/-- Worker for `removeAll`; the fuel (initially `s.length`) bounds the
number of visited positions. -/
def removeAllAux : Nat → List Char → List Char → List Char
  | 0, _, s => s
  | Nat.succ fuel, old, s =>
      match s with
      | [] => []
      | c :: rest =>
          if old.isPrefixOf (c :: rest) && !old.isEmpty then
            removeAllAux fuel old ((c :: rest).drop old.length)
          else
            c :: removeAllAux fuel old rest

/-- Python `s.replace(old, "")`: every non-overlapping occurrence of `old`
deleted left to right (with `old = ""` the result is `s`, as in Python). -/
def removeAll (old s : List Char) : List Char :=
  removeAllAux s.length old s

/-- The process-wide LLM memory dict `self.memory` of `LLMHandler`
(key-value, never persisted). -/
abbrev Memory := List (String × String)

/-- Dict write `self.memory[key] = value`: overwrite in place when the key
exists, else append. -/
def mem_set (m : Memory) (k v : String) : Memory :=
  if (m.lookup k).isSome then
    m.map (fun p => if p.1 == k then (k, v) else p)
  else m ++ [(k, v)]

/-- Guarded dict delete `if key in self.memory: del self.memory[key]`. -/
def mem_del (m : Memory) (k : String) : Memory :=
  if (m.lookup k).isSome then m.filter (fun p => p.1 != k) else m

/-- A parsed memory-update directive: the optional `"add"`, `"update"` and
`"delete"` entries of the instruction dict (`Option` models key
presence). -/
structure MemoryInstructions where
  add : Option (List (String × String))
  update : Option (List (String × String))
  delete : Option (List String)
  deriving Repr

/-- `LLMHandler._process_memory_instructions` (leading underscore dropped):
apply the deletes, then the updates, then the adds to the memory dict.  The
Python function also accumulates a human-readable summary string which no
caller consumes; the summary is omitted here. -/
def process_memory_instructions (ins : MemoryInstructions) (mem : Memory) : Memory :=
  let m1 := match ins.delete with
    | none => mem
    | some ks => ks.foldl mem_del mem
  let m2 := match ins.update with
    | none => m1
    | some kvs => kvs.foldl (fun m kv => mem_set m kv.1 kv.2) m1
  let m3 := match ins.add with
    | none => m2
    | some kvs => kvs.foldl (fun m kv => mem_set m kv.1 kv.2) m2
  m3

/-- The sentinel marker `"MEMORY_UPDATE:"`. -/
def memoryUpdateMarker : List Char := "MEMORY_UPDATE:".data

/-- The sentinel marker for ending a conversation, positive form. -/
def endConvTrueMarker : List Char := "END_CONVERSATION: true".data

/-- The sentinel marker for ending a conversation, negative form. -/
def endConvFalseMarker : List Char := "END_CONVERSATION: false".data

/-- The marker-processing section of `on_message` in `bot.py`, applied to a
non-empty LLM response and the current LLM memory store.  When
`"MEMORY_UPDATE:"` occurs, the slice from its start to one past the *first*
following `'\x7d'` is cut out of the text (`response.replace(mem_update, "")`
then `.strip()`); the directive itself is *not* applied to the memory store
— the body carries only a `TODO: Process memory update` comment — so the
store passes through unchanged.  Then the `END_CONVERSATION` markers are
stripped likewise.  Returns the outgoing text, the memory store, and the
end-of-conversation flag. -/
def on_message_route (resp : List Char) (mem : Memory) :
    List Char × Memory × Bool :=
  let resp1 :=
    if containsSub resp memoryUpdateMarker then
      match pyFind resp memoryUpdateMarker 0 with
      | some start =>
          let endPos :=
            match pyFind resp ['\x7d'] start with
            | some e => e + 1
            | none => 0
          let memUpdate := pySlice resp start endPos
          pyStrip (removeAll memUpdate resp)
      | none => resp
    else resp
  let withEnd :=
    if containsSub resp1 endConvTrueMarker then
      (pyStrip (removeAll endConvTrueMarker resp1), true)
    else if containsSub resp1 endConvFalseMarker then
      (pyStrip (removeAll endConvFalseMarker resp1), false)
    else (resp1, false)
  (withEnd.1, mem, withEnd.2)

/-! ### Example records used by concrete theorems -/

/-- A freshly opted-in user: timezone `"UTC"`, morning hour 9. -/
def utc_user : UserRecord := fresh_record 0

/-- A user whose weekly review day is the valid `day_map` key `"SUN"`. -/
def sun_user : UserRecord :=
  { fresh_record 0 with config := { default_config with weekly_review_day := "SUN" } }

/-- A user with activity probability 0 and no previous activity check. -/
def prob0_user : UserRecord :=
  { fresh_record 0 with config := { default_config with activity_check_probability := 0 } }

/-- A user with activity probability 1 and no previous activity check. -/
def prob1_user : UserRecord :=
  { fresh_record 0 with config := { default_config with activity_check_probability := 1 } }

/-- A user whose stored timezone and weekly review day are both malformed. -/
def bad_user : UserRecord :=
  { fresh_record 0 with
      config := { default_config with timezone := "???", weekly_review_day := "???" } }

/-- A user whose last activity check happened at instant 0. -/
def checked_user : UserRecord :=
  { fresh_record 0 with last_activity_check := some 0 }

/-! ### The persisted JSON document (`load_data` / `save_data`)

`load_data` is `json.load` over `user_data.json` (a missing file yields the
empty dict) and `save_data` is `json.dump(self.user_data, f, indent=4)`.
Both are modelled at the level of JSON texts (`List Char`) and JSON values.
The value type covers what these documents contain: null, booleans, ints,
non-exponent decimal floats (as sign/integer-part/fraction-digit data, the
content of Python's shortest-round-trip float repr), strings (as Unicode
codepoints `< 0x10000`, the form `json.dump`'s default `ensure_ascii=True`
output encodes directly), arrays and objects.  The serializer emits compact
separators where `json.dump(..., indent=4)` emits whitespace, and uniform
`\uXXXX` escapes where Python would use short escapes — both only formatting,
never content. -/

/-- A Unicode codepoint as stored in a modelled JSON string. -/
abbrev Codepoint := Fin 65536

/-- A modelled JSON string. -/
abbrev JStr := List Codepoint

mutual
inductive JVal where
  | jnull
  | jbool (b : Bool)
  | jint (n : Int)
  | jfrac (neg : Bool) (ip : Nat) (d : Fin 10) (fp : List (Fin 10))
  | jstr (s : JStr)
  | jarr (xs : JMems)
  | jobj (kvs : JPairs)
inductive JMems where
  | nil
  | cons (v : JVal) (rest : JMems)
inductive JPairs where
  | nil
  | cons (k : JStr) (v : JVal) (rest : JPairs)
end

/-- The decimal digit character for `d < 10`. -/
def digitChar (d : Nat) : Char := Char.ofNat (48 + d)

/-- Whether a character is a decimal digit. -/
def isDigitChar (c : Char) : Bool := decide (48 ≤ c.toNat ∧ c.toNat ≤ 57)

/-- Numeric value of a digit character. -/
def digitVal (c : Char) : Nat := c.toNat - 48

/-- Value of a big-endian run of digit characters. -/
def digitsToNat (ds : List Char) : Nat :=
  ds.foldl (fun acc c => 10 * acc + digitVal c) 0

/-- Big-endian decimal digits of `n`, via a fuel bound (`n < fuel`). -/
def natDigitsAux : Nat → Nat → List Char
  | 0, _ => []
  | fuel + 1, n =>
      if n < 10 then [digitChar n]
      else natDigitsAux fuel (n / 10) ++ [digitChar (n % 10)]

/-- Canonical decimal digits of `n`, no leading zeros. -/
def natDigits (n : Nat) : List Char := natDigitsAux (n + 1) n

/-- Decimal text of an `Int` (canonical, minus sign for negatives). -/
def serInt (n : Int) : List Char :=
  if n < 0 then '-' :: natDigits n.natAbs else natDigits n.toNat

/-- Lowercase hex digit character for `n < 16`. -/
def hexDigitChar (n : Nat) : Char :=
  if n < 10 then digitChar n else Char.ofNat (87 + n)

/-- JSON text of one string codepoint, as `json.dump` with
`ensure_ascii=True` encodes it at the content level: `\"` and `\\` escapes,
printable ASCII verbatim, everything else as a `\uXXXX` escape. -/
def serializeCodepoint (c : Codepoint) : List Char :=
  if c.val = 34 then ['\\', '"']
  else if c.val = 92 then ['\\', '\\']
  else if 32 ≤ c.val ∧ c.val ≤ 126 then [Char.ofNat c.val]
  else ['\\', 'u', hexDigitChar (c.val / 4096 % 16), hexDigitChar (c.val / 256 % 16),
    hexDigitChar (c.val / 16 % 16), hexDigitChar (c.val % 16)]

/-- JSON text of a string value, quotes included. -/
def serStr (s : JStr) : List Char :=
  '"' :: (s.map serializeCodepoint).flatten ++ ['"']

mutual
/-- JSON text of a value (compact separators; see the section comment). -/
def serVal : JVal → List Char
  | .jnull => ['n', 'u', 'l', 'l']
  | .jbool true => ['t', 'r', 'u', 'e']
  | .jbool false => ['f', 'a', 'l', 's', 'e']
  | .jint n => serInt n
  | .jfrac neg ip d fp =>
      (if neg then ['-'] else []) ++ natDigits ip
        ++ '.' :: (d :: fp).map (fun x => digitChar x.val)
  | .jstr s => serStr s
  | .jarr .nil => ['[', ']']
  | .jarr (.cons v rest) => '[' :: (serVal v ++ serMemsTail rest ++ [']'])
  | .jobj .nil => ['\x7b', '\x7d']
  | .jobj (.cons k v rest) =>
      '\x7b' :: (serStr k ++ ':' :: serVal v ++ serPairsTail rest ++ ['\x7d'])
/-- Comma-prefixed texts of the remaining array members. -/
def serMemsTail : JMems → List Char
  | .nil => []
  | .cons v rest => ',' :: (serVal v ++ serMemsTail rest)
/-- Comma-prefixed texts of the remaining object entries. -/
def serPairsTail : JPairs → List Char
  | .nil => []
  | .cons k v rest => ',' :: (serStr k ++ ':' :: serVal v ++ serPairsTail rest)
end

mutual
/-- Node count of a value; lower bound for the parser fuel. -/
def sizeV : JVal → Nat
  | .jarr xs => sizeM xs + 1
  | .jobj kvs => sizeP kvs + 1
  | _ => 1
/-- Node count of array members. -/
def sizeM : JMems → Nat
  | .nil => 0
  | .cons v rest => sizeV v + sizeM rest + 1
/-- Node count of object entries. -/
def sizeP : JPairs → Nat
  | .nil => 0
  | .cons _ v rest => sizeV v + sizeP rest + 1
end

/-- JSON whitespace. -/
def isWsChar (c : Char) : Bool := c == ' ' || c == '\t' || c == '\n' || c == '\r'

/-- Skip insignificant whitespace between tokens. -/
def skipWs (s : List Char) : List Char := s.dropWhile isWsChar

/-- A continuation a serialized number may safely be followed by: empty, or
starting with neither a digit nor a decimal point (in serialized documents a
number is followed by `,`, `]`, `\x7d` or the end of the text). -/
def numSafe (rest : List Char) : Bool :=
  match rest with
  | [] => true
  | c :: _ => !isDigitChar c && c != '.'

/-- Fraction digit from its character. -/
def charToDigit (c : Char) : Fin 10 :=
  ⟨(c.toNat - 48) % 10, Nat.mod_lt _ (by norm_num)⟩

/-- Hex digit value of a character (either case), as `Fin 16`. -/
def parseHexDigit (c : Char) : Option (Fin 16) :=
  if h : 48 ≤ c.toNat ∧ c.toNat ≤ 57 then some ⟨c.toNat - 48, by omega⟩
  else if h2 : 97 ≤ c.toNat ∧ c.toNat ≤ 102 then some ⟨c.toNat - 87, by omega⟩
  else if h3 : 65 ≤ c.toNat ∧ c.toNat ≤ 70 then some ⟨c.toNat - 55, by omega⟩
  else none

/-- Combine four hex digits into a codepoint. -/
def hexCombine (a b c d : Fin 16) : Codepoint :=
  ⟨a.val * 4096 + b.val * 256 + c.val * 16 + d.val, by
    have := a.isLt; have := b.isLt; have := c.isLt; have := d.isLt; omega⟩

/-- Combine four hex digit characters into a codepoint, if all four parse. -/
def hex4 (c1 c2 c3 c4 : Char) : Option Codepoint :=
  match parseHexDigit c1, parseHexDigit c2, parseHexDigit c3, parseHexDigit c4 with
  | some a, some b, some c, some d => some (hexCombine a b c d)
  | _, _, _, _ => none

/-- Parse the body of a string literal after its opening quote, up to and
including the closing quote; the fuel bounds the number of decoded
codepoints. -/
def parseStrBody : Nat → List Char → Option (JStr × List Char)
  | 0, _ => none
  | fuel + 1, s =>
      match s with
      | [] => none
      | c :: rest =>
          if c = '"' then some ([], rest)
          else if c = '\\' then
            match rest with
            | '"' :: t =>
                Option.map (fun r => (⟨34, by omega⟩ :: r.1, r.2)) (parseStrBody fuel t)
            | '\\' :: t =>
                Option.map (fun r => (⟨92, by omega⟩ :: r.1, r.2)) (parseStrBody fuel t)
            | '/' :: t =>
                Option.map (fun r => (⟨47, by omega⟩ :: r.1, r.2)) (parseStrBody fuel t)
            | 'b' :: t =>
                Option.map (fun r => (⟨8, by omega⟩ :: r.1, r.2)) (parseStrBody fuel t)
            | 'f' :: t =>
                Option.map (fun r => (⟨12, by omega⟩ :: r.1, r.2)) (parseStrBody fuel t)
            | 'n' :: t =>
                Option.map (fun r => (⟨10, by omega⟩ :: r.1, r.2)) (parseStrBody fuel t)
            | 'r' :: t =>
                Option.map (fun r => (⟨13, by omega⟩ :: r.1, r.2)) (parseStrBody fuel t)
            | 't' :: t =>
                Option.map (fun r => (⟨9, by omega⟩ :: r.1, r.2)) (parseStrBody fuel t)
            | 'u' :: c1 :: c2 :: c3 :: c4 :: t =>
                match hex4 c1 c2 c3 c4 with
                | some cp => Option.map (fun r => (cp :: r.1, r.2)) (parseStrBody fuel t)
                | none => none
            | _ => none
          else if h : 32 ≤ c.toNat ∧ c.toNat ≤ 126 then
            Option.map (fun r => (⟨c.toNat, by omega⟩ :: r.1, r.2)) (parseStrBody fuel rest)
          else none

/-- After the integer part of a number, parse an optional `.`-led fraction;
without one the number is an integer. -/
def parseFracPart (neg : Bool) (ip : Nat) (s2 : List Char) : Option (JVal × List Char) :=
  match s2 with
  | '.' :: s3 =>
      match s3.takeWhile isDigitChar with
      | [] => none
      | f0 :: _ =>
          some (.jfrac neg ip (charToDigit f0)
              ((s3.takeWhile isDigitChar).tail.map charToDigit),
            s3.dropWhile isDigitChar)
  | _ => some (.jint (if neg then -(ip : Int) else (ip : Int)), s2)

/-- Parse an unsigned number body (integer part, optional fraction) with the
already-consumed sign. -/
def parseNumberAbs (neg : Bool) (s : List Char) : Option (JVal × List Char) :=
  match s.takeWhile isDigitChar with
  | [] => none
  | _ :: _ =>
      parseFracPart neg (digitsToNat (s.takeWhile isDigitChar)) (s.dropWhile isDigitChar)

/-- Parse a JSON number (optional minus sign, then the body). -/
def parseNumber (s : List Char) : Option (JVal × List Char) :=
  match s with
  | '-' :: t => parseNumberAbs true t
  | _ => parseNumberAbs false s

/-- Array production after the opening bracket: an immediate `]` is the
empty array, anything else is handed to the member continuation. -/
def arrCase (arrK : List Char → Option (JMems × List Char)) :
    List Char → Option (JVal × List Char)
  | [] => none
  | c2 :: t2 =>
      if c2 = ']' then some (.jarr .nil, t2)
      else Option.map (fun r => (JVal.jarr r.1, r.2)) (arrK (c2 :: t2))

/-- Object production after the opening brace, dual to `arrCase`. -/
def objCase (objK : List Char → Option (JPairs × List Char)) :
    List Char → Option (JVal × List Char)
  | [] => none
  | c2 :: t2 =>
      if c2 = '\x7d' then some (.jobj .nil, t2)
      else Option.map (fun r => (JVal.jobj r.1, r.2)) (objK (c2 :: t2))

/-- Head dispatch of the value parser: given the first significant
character, the remaining text, and continuations for non-empty array and
object bodies, parse one value. -/
def parseValHead (arrK : List Char → Option (JMems × List Char))
    (objK : List Char → Option (JPairs × List Char))
    (c : Char) (t : List Char) : Option (JVal × List Char) :=
  if c = 'n' then
    match t with
    | 'u' :: 'l' :: 'l' :: rest => some (.jnull, rest)
    | _ => none
  else if c = 't' then
    match t with
    | 'r' :: 'u' :: 'e' :: rest => some (.jbool true, rest)
    | _ => none
  else if c = 'f' then
    match t with
    | 'a' :: 'l' :: 's' :: 'e' :: rest => some (.jbool false, rest)
    | _ => none
  else if c = '"' then
    Option.map (fun r => (JVal.jstr r.1, r.2)) (parseStrBody (t.length + 1) t)
  else if c = '[' then arrCase arrK (skipWs t)
  else if c = '\x7b' then objCase objK (skipWs t)
  else parseNumber (c :: t)

/-- After one array member: a comma continues with more members, a closing
bracket ends the array. -/
def memsStep (memsK : List Char → Option (JMems × List Char)) (v : JVal) :
    List Char → Option (JMems × List Char)
  | [] => none
  | c :: t =>
      if c = ',' then Option.map (fun r => (JMems.cons v r.1, r.2)) (memsK t)
      else if c = ']' then some (.cons v .nil, t)
      else none

/-- After one object value: a comma continues with more entries, a closing
brace ends the object. -/
def pairsAfterVal (pairsK : List Char → Option (JPairs × List Char))
    (k : JStr) (v : JVal) : List Char → Option (JPairs × List Char)
  | [] => none
  | c3 :: t3 =>
      if c3 = ',' then Option.map (fun r => (JPairs.cons k v r.1, r.2)) (pairsK t3)
      else if c3 = '\x7d' then some (.cons k v .nil, t3)
      else none

/-- After an object key: a colon, then the value, then the separator. -/
def pairsAfterKey (valK : List Char → Option (JVal × List Char))
    (pairsK : List Char → Option (JPairs × List Char)) (k : JStr) :
    List Char → Option (JPairs × List Char)
  | [] => none
  | c2 :: t2 =>
      if c2 = ':' then
        (valK t2).bind (fun rv => pairsAfterVal pairsK k rv.1 (skipWs rv.2))
      else none

mutual
/-- Parse one JSON value (model of the grammar `json.load` accepts on the
documents `save_data` produces, plus interleaved whitespace; exponent float
forms are not modelled).  The fuel decreases on every recursive call; the
first significant character selects the production. -/
def parseVal : Nat → List Char → Option (JVal × List Char)
  | 0, _ => none
  | fuel + 1, s =>
      match skipWs s with
      | [] => none
      | c :: t =>
          parseValHead (fun s1 => parseMems fuel s1) (fun s1 => parsePairs fuel s1) c t
/-- Parse the members of a non-empty array, consuming the closing bracket. -/
def parseMems : Nat → List Char → Option (JMems × List Char)
  | 0, _ => none
  | fuel + 1, s =>
      (parseVal fuel s).bind (fun r =>
        memsStep (fun s1 => parseMems fuel s1) r.1 (skipWs r.2))
/-- Parse the entries of a non-empty object, consuming the closing brace. -/
def parsePairs : Nat → List Char → Option (JPairs × List Char)
  | 0, _ => none
  | fuel + 1, s =>
      match skipWs s with
      | [] => none
      | c :: t =>
          if c = '"' then
            (parseStrBody (t.length + 1) t).bind (fun rk =>
              pairsAfterKey (fun s1 => parseVal fuel s1) (fun s1 => parsePairs fuel s1)
                rk.1 (skipWs rk.2))
          else none
end

/-- `json.load` of a whole document text: parse one value (the input length
bounds the fuel) and require only whitespace to remain; `none` models the
`JSONDecodeError` raise. -/
def loads (doc : List Char) : Option JVal :=
  match parseVal (doc.length + 1) doc with
  | none => none
  | some (v, rest) => if skipWs rest = [] then some v else none

/-- `load_data`: read and parse `user_data.json`; a missing file
(`FileNotFoundError`) yields the empty dict. -/
def load_data (file : Option (List Char)) : Option JVal :=
  match file with
  | none => some (JVal.jobj JPairs.nil)
  | some doc => loads doc

/-- `save_data`: `json.dump` of the in-memory mapping (content-equal
serialization; `indent=4` only adds insignificant whitespace). -/
def save_data (v : JVal) : List Char := serVal v

/-! ### Store lookup helper lemmas -/

theorem lookup_cons_key (uid k : String) (v : UserRecord) (tl : Store) :
    ((k, v) :: tl).lookup uid = if uid = k then some v else tl.lookup uid := by
  by_cases h : uid = k
  · subst h; simp [List.lookup]
  · have hb : (uid == k) = false := beq_eq_false_iff_ne.mpr h
    simp [List.lookup, hb, h]

theorem lookup_filter_out_self (store : Store) (uid : String) :
    (store.filter (fun p => decide (p.1 ≠ uid))).lookup uid = none := by
  rw [List.lookup_eq_none_iff]
  intro p hp
  have := of_decide_eq_true (List.mem_filter.mp hp).2
  exact bne_iff_ne.mpr fun e => this e.symm

theorem lookup_filter_out_other (store : Store) (uid v : String) (hne : v ≠ uid) :
    (store.filter (fun p => decide (p.1 ≠ uid))).lookup v = store.lookup v := by
  induction store with
  | nil => rfl
  | cons hd tl ih =>
      obtain ⟨k, w⟩ := hd
      by_cases h : k = uid
      · subst h
        rw [List.filter_cons_of_neg (by simp), ih, lookup_cons_key, if_neg hne]
      · rw [List.filter_cons_of_pos (by simpa using h), lookup_cons_key, lookup_cons_key, ih]

theorem lookup_append_single (store : Store) (uid : String) (r : UserRecord) :
    store.lookup uid = none → (store ++ [(uid, r)]).lookup uid = some r := by
  induction store with
  | nil => intro _; simp [List.lookup]
  | cons hd tl ih =>
      obtain ⟨k, v⟩ := hd
      intro h
      rw [lookup_cons_key] at h
      rw [List.cons_append, lookup_cons_key]
      by_cases hv : uid = k
      · rw [if_pos hv] at h; cases h
      · rw [if_neg hv] at h
        rw [if_neg hv]
        exact ih h

theorem lookup_none_keys (store : Store) (uid : String) :
    store.lookup uid = none → ∀ p ∈ store, p.1 ≠ uid := by
  induction store with
  | nil => intro _ p hp; exact absurd hp (List.not_mem_nil p)
  | cons hd tl ih =>
      obtain ⟨k, v⟩ := hd
      intro h p hp
      rw [lookup_cons_key] at h
      by_cases hv : uid = k
      · rw [if_pos hv] at h; cases h
      · rw [if_neg hv] at h
        rcases List.mem_cons.mp hp with hp | hp
        · subst hp
          exact fun e => hv e.symm
        · exact ih h p hp

/-! ### Character and digit facts -/

theorem char_ne_of_toNat_ne {c d : Char} (h : c.toNat ≠ d.toNat) : c ≠ d :=
  fun e => h (congrArg Char.toNat e)

theorem toNat_ofNat_valid (n : Nat) (h : n < 55296) : (Char.ofNat n).toNat = n := by
  have hv : n.isValidChar := Or.inl h
  rw [Char.ofNat, dif_pos hv]
  simp [Char.ofNatAux, Char.toNat, UInt32.toNat, UInt32.ofNat', BitVec.toNat_ofNatLt]

theorem toNat_digitChar (d : Nat) (h : d < 10) : (digitChar d).toNat = 48 + d := by
  unfold digitChar
  exact toNat_ofNat_valid _ (by omega)

theorem digitVal_digitChar (d : Nat) (h : d < 10) : digitVal (digitChar d) = d := by
  unfold digitVal
  rw [toNat_digitChar d h]
  omega

theorem isDigitChar_digitChar (d : Nat) (h : d < 10) : isDigitChar (digitChar d) = true := by
  unfold isDigitChar
  rw [decide_eq_true_eq, toNat_digitChar d h]
  omega

theorem isDigitChar_toNat {c : Char} (h : isDigitChar c = true) :
    48 ≤ c.toNat ∧ c.toNat ≤ 57 := by
  simpa [isDigitChar] using h

theorem digit_not_ws {c : Char} (h : isDigitChar c = true) : isWsChar c = false := by
  obtain ⟨h1, h2⟩ := isDigitChar_toNat h
  simp only [isWsChar, Bool.or_eq_false_iff, beq_eq_false_iff_ne]
  refine ⟨⟨⟨?_, ?_⟩, ?_⟩, ?_⟩
  · exact char_ne_of_toNat_ne (by have e : (' ').toNat = 32 := rfl; omega)
  · exact char_ne_of_toNat_ne (by have e : ('\t').toNat = 9 := rfl; omega)
  · exact char_ne_of_toNat_ne (by have e : ('\n').toNat = 10 := rfl; omega)
  · exact char_ne_of_toNat_ne (by have e : ('\x0d').toNat = 13 := rfl; omega)

theorem charToDigit_digitChar (d : Fin 10) : charToDigit (digitChar d.val) = d := by
  have := d.isLt
  apply Fin.ext
  unfold charToDigit
  simp only
  rw [toNat_digitChar d.val this]
  omega

/-! ### Decimal digit runs -/

theorem foldl_digits_shift (t : List Char) :
    ∀ a : Nat, t.foldl (fun acc c => 10 * acc + digitVal c) a
      = a * 10 ^ t.length + t.foldl (fun acc c => 10 * acc + digitVal c) 0 := by
  induction t with
  | nil => intro a; simp
  | cons c t ih =>
      intro a
      simp only [List.foldl_cons, List.length_cons]
      rw [ih (10 * a + digitVal c), ih (10 * 0 + digitVal c)]
      ring

theorem digitsToNat_append (xs ys : List Char) :
    digitsToNat (xs ++ ys) =
      digitsToNat xs * 10 ^ ys.length + digitsToNat ys := by
  unfold digitsToNat
  rw [List.foldl_append]
  exact foldl_digits_shift ys _

theorem natDigitsAux_spec (fuel : Nat) :
    ∀ n, n < fuel →
      (∀ c ∈ natDigitsAux fuel n, isDigitChar c = true) ∧
      natDigitsAux fuel n ≠ [] ∧
      digitsToNat (natDigitsAux fuel n) = n := by
  induction fuel with
  | zero => intro n h; omega
  | succ fuel ih =>
      intro n h
      by_cases h10 : n < 10
      · refine ⟨?_, ?_, ?_⟩
        · intro c hc
          simp [natDigitsAux, h10] at hc
          subst hc
          exact isDigitChar_digitChar n h10
        · simp [natDigitsAux, h10]
        · simp [natDigitsAux, h10, digitsToNat, digitVal_digitChar n h10]
      · have hdiv : n / 10 < fuel := by omega
        obtain ⟨hd, hne, hval⟩ := ih (n / 10) hdiv
        refine ⟨?_, ?_, ?_⟩
        · intro c hc
          simp only [natDigitsAux, if_neg h10, List.mem_append, List.mem_singleton] at hc
          rcases hc with hc | hc
          · exact hd c hc
          · subst hc
            exact isDigitChar_digitChar _ (by omega)
        · simp [natDigitsAux, h10]
        · simp only [natDigitsAux, if_neg h10]
          rw [digitsToNat_append, hval]
          simp [digitsToNat, digitVal_digitChar (n % 10) (by omega)]
          omega

theorem natDigits_digits (n : Nat) : ∀ c ∈ natDigits n, isDigitChar c = true :=
  (natDigitsAux_spec (n + 1) n (by omega)).1

theorem natDigits_ne_nil (n : Nat) : natDigits n ≠ [] :=
  (natDigitsAux_spec (n + 1) n (by omega)).2.1

theorem digitsToNat_natDigits (n : Nat) : digitsToNat (natDigits n) = n :=
  (natDigitsAux_spec (n + 1) n (by omega)).2.2

/-! ### takeWhile / dropWhile over a serialized run -/

theorem span_append_of (p : Char → Bool) (ds rest : List Char)
    (hds : ∀ c ∈ ds, p c = true)
    (hrest : ∀ c, rest.head? = some c → p c = false) :
    (ds ++ rest).takeWhile p = ds ∧ (ds ++ rest).dropWhile p = rest := by
  induction ds with
  | nil =>
      cases rest with
      | nil => simp
      | cons c t =>
          have hc := hrest c rfl
          simp [List.takeWhile_cons, List.dropWhile_cons, hc]
  | cons a as ih =>
      have ha := hds a (by simp)
      have hih := ih (fun c hc => hds c (by simp [hc]))
      simp [List.takeWhile_cons, List.dropWhile_cons, ha, hih.1, hih.2]

/-! ### String literal round trip -/

theorem parseHexDigit_hexDigitChar (a : Fin 16) :
    parseHexDigit (hexDigitChar a.val) = some a := by
  revert a
  decide

theorem hex4_hexDigitChars (a b c d : Fin 16) :
    hex4 (hexDigitChar a.val) (hexDigitChar b.val) (hexDigitChar c.val) (hexDigitChar d.val)
      = some (hexCombine a b c d) := by
  unfold hex4
  rw [parseHexDigit_hexDigitChar a, parseHexDigit_hexDigitChar b,
    parseHexDigit_hexDigitChar c, parseHexDigit_hexDigitChar d]

theorem parseStrBody_quote (f : Nat) (rest : List Char) :
    parseStrBody (f + 1) ('"' :: rest) = some ([], rest) := rfl

theorem parseStrBody_escQuote (f : Nat) (t : List Char) :
    parseStrBody (f + 1) ('\\' :: '"' :: t)
      = Option.map (fun r => ((⟨34, by omega⟩ : Codepoint) :: r.1, r.2)) (parseStrBody f t) := rfl

theorem parseStrBody_escBackslash (f : Nat) (t : List Char) :
    parseStrBody (f + 1) ('\\' :: '\\' :: t)
      = Option.map (fun r => ((⟨92, by omega⟩ : Codepoint) :: r.1, r.2)) (parseStrBody f t) := rfl

theorem parseStrBody_cons_eq (f : Nat) (c : Char) (rest : List Char) :
    parseStrBody (f + 1) (c :: rest)
      = (if c = '"' then some ([], rest)
        else if c = '\\' then
          match rest with
          | '"' :: t =>
              Option.map (fun r => ((⟨34, by omega⟩ : Codepoint) :: r.1, r.2)) (parseStrBody f t)
          | '\\' :: t =>
              Option.map (fun r => ((⟨92, by omega⟩ : Codepoint) :: r.1, r.2)) (parseStrBody f t)
          | '/' :: t =>
              Option.map (fun r => ((⟨47, by omega⟩ : Codepoint) :: r.1, r.2)) (parseStrBody f t)
          | 'b' :: t =>
              Option.map (fun r => ((⟨8, by omega⟩ : Codepoint) :: r.1, r.2)) (parseStrBody f t)
          | 'f' :: t =>
              Option.map (fun r => ((⟨12, by omega⟩ : Codepoint) :: r.1, r.2)) (parseStrBody f t)
          | 'n' :: t =>
              Option.map (fun r => ((⟨10, by omega⟩ : Codepoint) :: r.1, r.2)) (parseStrBody f t)
          | 'r' :: t =>
              Option.map (fun r => ((⟨13, by omega⟩ : Codepoint) :: r.1, r.2)) (parseStrBody f t)
          | 't' :: t =>
              Option.map (fun r => ((⟨9, by omega⟩ : Codepoint) :: r.1, r.2)) (parseStrBody f t)
          | 'u' :: c1 :: c2 :: c3 :: c4 :: t =>
              match hex4 c1 c2 c3 c4 with
              | some cp => Option.map (fun r => (cp :: r.1, r.2)) (parseStrBody f t)
              | none => none
          | _ => none
        else if h : 32 ≤ c.toNat ∧ c.toNat ≤ 126 then
          Option.map (fun r => ((⟨c.toNat, by omega⟩ : Codepoint) :: r.1, r.2))
            (parseStrBody f rest)
        else none) := rfl

theorem parseStrBody_plain (f : Nat) (c0 : Char) (t : List Char)
    (h1 : c0 ≠ '"') (h2 : c0 ≠ '\\') (h3 : 32 ≤ c0.toNat ∧ c0.toNat ≤ 126) :
    parseStrBody (f + 1) (c0 :: t)
      = Option.map (fun r => ((⟨c0.toNat, by omega⟩ : Codepoint) :: r.1, r.2))
          (parseStrBody f t) := by
  rw [parseStrBody_cons_eq, if_neg h1, if_neg h2, dif_pos h3]

theorem parseStrBody_unicode (f : Nat) (c1 c2 c3 c4 : Char) (t : List Char)
    (cp : Codepoint) (he : hex4 c1 c2 c3 c4 = some cp) :
    parseStrBody (f + 1) ('\\' :: 'u' :: c1 :: c2 :: c3 :: c4 :: t)
      = Option.map (fun r => (cp :: r.1, r.2)) (parseStrBody f t) := by
  rw [parseStrBody_cons_eq, if_neg (by decide), if_pos rfl]
  show (match hex4 c1 c2 c3 c4 with
    | some cp => Option.map (fun r => (cp :: r.1, r.2)) (parseStrBody f t)
    | none => none) = Option.map (fun r => (cp :: r.1, r.2)) (parseStrBody f t)
  rw [he]

theorem parseStrBody_ser (s : JStr) :
    ∀ (fuel : Nat) (rest : List Char), s.length < fuel →
      parseStrBody fuel ((s.map serializeCodepoint).flatten ++ '"' :: rest)
        = some (s, rest) := by
  induction s with
  | nil =>
      intro fuel rest h
      cases fuel with
      | zero => omega
      | succ f => exact parseStrBody_quote f rest
  | cons c cs ih =>
      intro fuel rest h
      cases fuel with
      | zero => omega
      | succ f =>
          have hlen : cs.length < f := by
            simp only [List.length_cons] at h; omega
          have hih := ih f rest hlen
          rw [List.map_cons, List.flatten_cons, List.append_assoc]
          by_cases h34 : c.val = 34
          · have hser : serializeCodepoint c = ['\\', '"'] := by
              unfold serializeCodepoint
              rw [if_pos h34]
            rw [hser, List.cons_append, List.cons_append, List.nil_append,
              parseStrBody_escQuote, hih]
            have hc : (⟨34, by omega⟩ : Codepoint) = c := Fin.ext h34.symm
            rw [hc]
            rfl
          · by_cases h92 : c.val = 92
            · have hser : serializeCodepoint c = ['\\', '\\'] := by
                unfold serializeCodepoint
                rw [if_neg h34, if_pos h92]
              rw [hser, List.cons_append, List.cons_append, List.nil_append,
                parseStrBody_escBackslash, hih]
              have hc : (⟨92, by omega⟩ : Codepoint) = c := Fin.ext h92.symm
              rw [hc]
              rfl
            · by_cases hascii : 32 ≤ c.val ∧ c.val ≤ 126
              · have hser : serializeCodepoint c = [Char.ofNat c.val] := by
                  unfold serializeCodepoint
                  rw [if_neg h34, if_neg h92, if_pos hascii]
                have ht : (Char.ofNat c.val).toNat = c.val :=
                  toNat_ofNat_valid _ (by omega)
                have hne1 : Char.ofNat c.val ≠ '"' :=
                  char_ne_of_toNat_ne (by rw [ht]; have e : ('"').toNat = 34 := rfl; omega)
                have hne2 : Char.ofNat c.val ≠ '\\' :=
                  char_ne_of_toNat_ne (by rw [ht]; have e : ('\\').toNat = 92 := rfl; omega)
                rw [hser, List.cons_append, List.nil_append,
                  parseStrBody_plain f _ _ hne1 hne2 (by rw [ht]; exact hascii), hih]
                have hc : (⟨(Char.ofNat c.val).toNat, by omega⟩ : Codepoint) = c :=
                  Fin.ext ht
                rw [hc]
                rfl
              · have hser : serializeCodepoint c =
                    ['\\', 'u', hexDigitChar (c.val / 4096 % 16), hexDigitChar (c.val / 256 % 16),
                      hexDigitChar (c.val / 16 % 16), hexDigitChar (c.val % 16)] := by
                  unfold serializeCodepoint
                  rw [if_neg h34, if_neg h92, if_neg hascii]
                rw [hser]
                simp only [List.cons_append, List.nil_append]
                rw [parseStrBody_unicode f _ _ _ _ _ _
                    (hex4_hexDigitChars ⟨c.val / 4096 % 16, by omega⟩ ⟨c.val / 256 % 16, by omega⟩
                      ⟨c.val / 16 % 16, by omega⟩ ⟨c.val % 16, by omega⟩),
                  hih]
                have hc : hexCombine ⟨c.val / 4096 % 16, by omega⟩ ⟨c.val / 256 % 16, by omega⟩
                    ⟨c.val / 16 % 16, by omega⟩ ⟨c.val % 16, by omega⟩ = c := by
                  apply Fin.ext
                  show c.val / 4096 % 16 * 4096 + c.val / 256 % 16 * 256
                      + c.val / 16 % 16 * 16 + c.val % 16 = c.val
                  have := c.isLt
                  omega
                rw [hc]
                rfl

/-! ### Number round trip -/

theorem numSafe_head_not_digit {rest : List Char} (h : numSafe rest = true) :
    ∀ c, rest.head? = some c → isDigitChar c = false := by
  intro c hc
  cases rest with
  | nil => cases hc
  | cons c0 t =>
      injection hc with hc0
      subst hc0
      simp only [numSafe, Bool.and_eq_true, Bool.not_eq_true'] at h
      exact h.1

theorem numSafe_head_not_dot {rest : List Char} (h : numSafe rest = true) :
    ∀ c, rest.head? = some c → c ≠ '.' := by
  intro c hc
  cases rest with
  | nil => cases hc
  | cons c0 t =>
      injection hc with hc0
      subst hc0
      simp only [numSafe, Bool.and_eq_true, bne_iff_ne] at h
      exact h.2

theorem parseFracPart_noDot (neg : Bool) (ip : Nat) (s2 : List Char)
    (h : ∀ c, s2.head? = some c → c ≠ '.') :
    parseFracPart neg ip s2
      = some (.jint (if neg then -(ip : Int) else (ip : Int)), s2) := by
  cases s2 with
  | nil => rfl
  | cons c t =>
      have hc := h c rfl
      unfold parseFracPart
      split
      · rename_i s3 heq
        injection heq with h1 _
        exact absurd h1 hc
      · rfl

theorem parseFracPart_dot_eq (neg : Bool) (ip : Nat) (s3 : List Char) :
    parseFracPart neg ip ('.' :: s3)
      = (match s3.takeWhile isDigitChar with
        | [] => none
        | f0 :: _ =>
            some (.jfrac neg ip (charToDigit f0)
                ((s3.takeWhile isDigitChar).tail.map charToDigit),
              s3.dropWhile isDigitChar)) := rfl

theorem parseFracPart_dot (neg : Bool) (ip : Nat) (d : Fin 10) (fp : List (Fin 10))
    (rest : List Char) (hrest : ∀ c, rest.head? = some c → isDigitChar c = false) :
    parseFracPart neg ip ('.' :: ((d :: fp).map (fun x => digitChar x.val) ++ rest))
      = some (.jfrac neg ip d fp, rest) := by
  have hdigits : ∀ c ∈ (d :: fp).map (fun x => digitChar x.val), isDigitChar c = true := by
    intro c hc
    simp only [List.mem_map] at hc
    obtain ⟨x, _, rfl⟩ := hc
    exact isDigitChar_digitChar x.val x.isLt
  have hspan := span_append_of isDigitChar _ rest hdigits hrest
  rw [parseFracPart_dot_eq, hspan.1, hspan.2]
  simp only [List.map_cons, List.tail_cons]
  have hmap : (fp.map (fun x => digitChar x.val)).map charToDigit = fp := by
    rw [List.map_map]
    have he : charToDigit ∘ (fun x : Fin 10 => digitChar x.val) = id :=
      funext fun x => charToDigit_digitChar x
    rw [he, List.map_id]
  rw [charToDigit_digitChar d, hmap]

theorem parseNumberAbs_digits (neg : Bool) (n : Nat) (s2 : List Char)
    (hs2 : ∀ c, s2.head? = some c → isDigitChar c = false) :
    parseNumberAbs neg (natDigits n ++ s2) = parseFracPart neg n s2 := by
  have hspan := span_append_of isDigitChar (natDigits n) s2 (natDigits_digits n) hs2
  unfold parseNumberAbs
  rw [hspan.1, hspan.2, digitsToNat_natDigits]
  obtain ⟨d, ds, hds⟩ := List.exists_cons_of_ne_nil (natDigits_ne_nil n)
  rw [hds]

theorem parseNumber_dash (t : List Char) :
    parseNumber ('-' :: t) = parseNumberAbs true t := rfl

theorem parseNumber_not_dash (c : Char) (t : List Char) (h : c ≠ '-') :
    parseNumber (c :: t) = parseNumberAbs false (c :: t) := by
  unfold parseNumber
  split
  · rename_i t2 heq
    injection heq with h1 _
    exact absurd h1 h
  · rfl

theorem parseNumber_natDigits (n : Nat) (s2 : List Char)
    (hs2 : ∀ c, s2.head? = some c → isDigitChar c = false) :
    parseNumber (natDigits n ++ s2) = parseFracPart false n s2 := by
  obtain ⟨d, ds, hds⟩ := List.exists_cons_of_ne_nil (natDigits_ne_nil n)
  have hd : isDigitChar d = true := natDigits_digits n d (by rw [hds]; exact List.mem_cons_self d ds)
  have hdash : d ≠ '-' := by
    obtain ⟨h1, h2⟩ := isDigitChar_toNat hd
    exact char_ne_of_toNat_ne (by have e : ('-').toNat = 45 := rfl; omega)
  rw [hds, List.cons_append, parseNumber_not_dash d _ hdash, ← List.cons_append, ← hds,
    parseNumberAbs_digits false n s2 hs2]

theorem parseNumber_serInt (n : Int) (rest : List Char) (hsafe : numSafe rest = true) :
    parseNumber (serInt n ++ rest) = some (.jint n, rest) := by
  by_cases hn : n < 0
  · have hser : serInt n = '-' :: natDigits n.natAbs := by
      unfold serInt
      rw [if_pos hn]
    rw [hser, List.cons_append, parseNumber_dash,
      parseNumberAbs_digits true n.natAbs rest (numSafe_head_not_digit hsafe),
      parseFracPart_noDot true n.natAbs rest (numSafe_head_not_dot hsafe)]
    have hv : (if true then -((n.natAbs : Nat) : Int) else ((n.natAbs : Nat) : Int)) = n := by
      rw [if_pos rfl]
      omega
    rw [hv]
  · have hser : serInt n = natDigits n.toNat := by
      unfold serInt
      rw [if_neg hn]
    rw [hser, parseNumber_natDigits n.toNat rest (numSafe_head_not_digit hsafe),
      parseFracPart_noDot false n.toNat rest (numSafe_head_not_dot hsafe)]
    have hv : (if false then -((n.toNat : Nat) : Int) else ((n.toNat : Nat) : Int)) = n := by
      rw [if_neg (by simp)]
      omega
    rw [hv]

theorem parseNumber_serFrac_neg (ip : Nat) (d : Fin 10) (fp : List (Fin 10))
    (rest : List Char) (hsafe : numSafe rest = true) :
    parseNumber ('-' :: (natDigits ip
        ++ '.' :: ((d :: fp).map (fun x => digitChar x.val) ++ rest)))
      = some (.jfrac true ip d fp, rest) := by
  have hdot : ∀ c, ('.' :: ((d :: fp).map (fun x => digitChar x.val) ++ rest)).head? = some c →
      isDigitChar c = false := by
    intro c hc
    injection hc with hc0
    subst hc0
    rfl
  rw [parseNumber_dash, parseNumberAbs_digits true ip _ hdot,
    parseFracPart_dot true ip d fp rest (numSafe_head_not_digit hsafe)]

theorem parseNumber_serFrac_pos (ip : Nat) (d : Fin 10) (fp : List (Fin 10))
    (rest : List Char) (hsafe : numSafe rest = true) :
    parseNumber (natDigits ip ++ '.' :: ((d :: fp).map (fun x => digitChar x.val) ++ rest))
      = some (.jfrac false ip d fp, rest) := by
  have hdot : ∀ c, ('.' :: ((d :: fp).map (fun x => digitChar x.val) ++ rest)).head? = some c →
      isDigitChar c = false := by
    intro c hc
    injection hc with hc0
    subst hc0
    rfl
  rw [parseNumber_natDigits ip _ hdot,
    parseFracPart_dot false ip d fp rest (numSafe_head_not_digit hsafe)]

/-! ### Value parser dispatch facts -/

theorem skipWs_cons_not_ws (c : Char) (h : isWsChar c = false) (t : List Char) :
    skipWs (c :: t) = c :: t := by
  simp [skipWs, List.dropWhile_cons, h]

theorem parseVal_step (fuel : Nat) (s : List Char) (c : Char) (t : List Char)
    (hskip : skipWs s = c :: t) :
    parseVal (fuel + 1) s
      = parseValHead (fun s1 => parseMems fuel s1) (fun s1 => parsePairs fuel s1) c t := by
  unfold parseVal
  rw [hskip]

theorem digit_dispatch {c : Char} (h : isDigitChar c = true) :
    c ≠ 'n' ∧ c ≠ 't' ∧ c ≠ 'f' ∧ c ≠ '"' ∧ c ≠ '[' ∧ c ≠ '\x7b' := by
  obtain ⟨h1, h2⟩ := isDigitChar_toNat h
  refine ⟨?_, ?_, ?_, ?_, ?_, ?_⟩
  · exact char_ne_of_toNat_ne (by have e : ('n').toNat = 110 := rfl; omega)
  · exact char_ne_of_toNat_ne (by have e : ('t').toNat = 116 := rfl; omega)
  · exact char_ne_of_toNat_ne (by have e : ('f').toNat = 102 := rfl; omega)
  · exact char_ne_of_toNat_ne (by have e : ('"').toNat = 34 := rfl; omega)
  · exact char_ne_of_toNat_ne (by have e : ('[').toNat = 91 := rfl; omega)
  · exact char_ne_of_toNat_ne (by have e : ('\x7b').toNat = 123 := rfl; omega)

theorem digit_not_brackets {c : Char} (h : isDigitChar c = true) :
    c ≠ ']' ∧ c ≠ '\x7d' := by
  obtain ⟨h1, h2⟩ := isDigitChar_toNat h
  constructor
  · exact char_ne_of_toNat_ne (by have e : (']').toNat = 93 := rfl; omega)
  · exact char_ne_of_toNat_ne (by have e : ('\x7d').toNat = 125 := rfl; omega)

theorem serVal_head_spec (v : JVal) :
    ∃ c t, serVal v = c :: t ∧ isWsChar c = false ∧ c ≠ ']' ∧ c ≠ '\x7d' := by
  cases v with
  | jnull => exact ⟨'n', _, rfl, rfl, by decide, by decide⟩
  | jbool b =>
      cases b with
      | true => exact ⟨'t', _, rfl, rfl, by decide, by decide⟩
      | false => exact ⟨'f', _, rfl, rfl, by decide, by decide⟩
  | jint n =>
      by_cases hn : n < 0
      · refine ⟨'-', natDigits n.natAbs, ?_, rfl, by decide, by decide⟩
        show serInt n = _
        unfold serInt
        rw [if_pos hn]
      · obtain ⟨d, ds, hds⟩ := List.exists_cons_of_ne_nil (natDigits_ne_nil n.toNat)
        have hd : isDigitChar d = true :=
          natDigits_digits n.toNat d (by rw [hds]; exact List.mem_cons_self d ds)
        refine ⟨d, ds, ?_, digit_not_ws hd, (digit_not_brackets hd).1, (digit_not_brackets hd).2⟩
        show serInt n = _
        unfold serInt
        rw [if_neg hn, hds]
  | jfrac neg ip d fp =>
      cases neg with
      | true =>
          refine ⟨'-', natDigits ip ++ '.' :: (d :: fp).map (fun x => digitChar x.val),
            ?_, rfl, by decide, by decide⟩
          show (if true then ['-'] else []) ++ natDigits ip
              ++ '.' :: (d :: fp).map (fun x => digitChar x.val) = _
          rw [show (if true then ['-'] else ([] : List Char)) = ['-'] from rfl, List.cons_append,
            List.nil_append, List.cons_append]
      | false =>
          obtain ⟨d0, ds, hds⟩ := List.exists_cons_of_ne_nil (natDigits_ne_nil ip)
          have hd : isDigitChar d0 = true :=
            natDigits_digits ip d0 (by rw [hds]; exact List.mem_cons_self d0 ds)
          refine ⟨d0, ds ++ '.' :: (d :: fp).map (fun x => digitChar x.val),
            ?_, digit_not_ws hd, (digit_not_brackets hd).1, (digit_not_brackets hd).2⟩
          show (if false then ['-'] else []) ++ natDigits ip
              ++ '.' :: (d :: fp).map (fun x => digitChar x.val) = _
          rw [show (if false then ['-'] else ([] : List Char)) = [] from rfl, List.nil_append,
            hds, List.cons_append]
  | jstr s => exact ⟨'"', _, rfl, rfl, by decide, by decide⟩
  | jarr xs =>
      cases xs with
      | nil => exact ⟨'[', _, rfl, rfl, by decide, by decide⟩
      | cons v rest => exact ⟨'[', _, rfl, rfl, by decide, by decide⟩
  | jobj kvs =>
      cases kvs with
      | nil => exact ⟨'\x7b', _, rfl, rfl, by decide, by decide⟩
      | cons k v rest => exact ⟨'\x7b', _, rfl, rfl, by decide, by decide⟩

theorem numSafe_memsTail (xs : JMems) (rest : List Char) :
    numSafe (serMemsTail xs ++ ']' :: rest) = true := by
  cases xs <;> rfl

theorem numSafe_pairsTail (kvs : JPairs) (rest : List Char) :
    numSafe (serPairsTail kvs ++ '\x7d' :: rest) = true := by
  cases kvs <;> rfl

theorem serializeCodepoint_length_pos (c : Codepoint) :
    1 ≤ (serializeCodepoint c).length := by
  unfold serializeCodepoint
  split_ifs <;> simp

theorem strBody_length (s : JStr) :
    s.length ≤ ((s.map serializeCodepoint).flatten).length := by
  induction s with
  | nil => simp
  | cons c cs ih =>
      simp only [List.map_cons, List.flatten_cons, List.length_append, List.length_cons]
      have := serializeCodepoint_length_pos c
      omega

/-! ### Parser step equations -/

theorem sizeV_pos (v : JVal) : 1 ≤ sizeV v := by
  cases v <;> simp only [sizeV] <;> omega

theorem arrCase_cons (K : List Char → Option (JMems × List Char)) (c2 : Char) (t2 : List Char) :
    arrCase K (c2 :: t2)
      = if c2 = ']' then some (.jarr .nil, t2)
        else Option.map (fun r => (JVal.jarr r.1, r.2)) (K (c2 :: t2)) := rfl

theorem objCase_cons (K : List Char → Option (JPairs × List Char)) (c2 : Char) (t2 : List Char) :
    objCase K (c2 :: t2)
      = if c2 = '\x7d' then some (.jobj .nil, t2)
        else Option.map (fun r => (JVal.jobj r.1, r.2)) (K (c2 :: t2)) := rfl

theorem memsStep_cons (K : List Char → Option (JMems × List Char)) (v : JVal)
    (c : Char) (t : List Char) :
    memsStep K v (c :: t)
      = if c = ',' then Option.map (fun r => (JMems.cons v r.1, r.2)) (K t)
        else if c = ']' then some (.cons v .nil, t)
        else none := rfl

theorem pairsAfterVal_cons (K : List Char → Option (JPairs × List Char)) (k : JStr) (v : JVal)
    (c3 : Char) (t3 : List Char) :
    pairsAfterVal K k v (c3 :: t3)
      = if c3 = ',' then Option.map (fun r => (JPairs.cons k v r.1, r.2)) (K t3)
        else if c3 = '\x7d' then some (.cons k v .nil, t3)
        else none := rfl

theorem pairsAfterKey_cons (valK : List Char → Option (JVal × List Char))
    (K : List Char → Option (JPairs × List Char)) (k : JStr) (c2 : Char) (t2 : List Char) :
    pairsAfterKey valK K k (c2 :: t2)
      = if c2 = ':' then (valK t2).bind (fun rv => pairsAfterVal K k rv.1 (skipWs rv.2))
        else none := rfl

theorem parsePairs_step (fuel : Nat) (s t : List Char) (hskip : skipWs s = '"' :: t) :
    parsePairs (fuel + 1) s
      = (parseStrBody (t.length + 1) t).bind (fun rk =>
          pairsAfterKey (fun s1 => parseVal fuel s1) (fun s1 => parsePairs fuel s1)
            rk.1 (skipWs rk.2)) := by
  simp only [parsePairs]
  rw [hskip]
  rfl

/-! ### The printer/parser inversion -/

mutual

theorem parseVal_ser (v : JVal) (rest : List Char) (fuel : Nat)
    (hf : sizeV v ≤ fuel) (hsafe : numSafe rest = true) :
    parseVal fuel (serVal v ++ rest) = some (v, rest) := by
  cases fuel with
  | zero => exact absurd hf (by have := sizeV_pos v; omega)
  | succ f =>
      cases v with
      | jnull => rfl
      | jbool b => cases b with | true => rfl | false => rfl
      | jint n =>
          by_cases hn : n < 0
          · have hser : serInt n = '-' :: natDigits n.natAbs := by
              unfold serInt
              rw [if_pos hn]
            have hskip : skipWs (serVal (JVal.jint n) ++ rest)
                = '-' :: (natDigits n.natAbs ++ rest) := by
              show skipWs (serInt n ++ rest) = _
              rw [hser, List.cons_append]
              exact skipWs_cons_not_ws _ (by decide) _
            rw [parseVal_step f _ _ _ hskip]
            unfold parseValHead
            rw [if_neg (by decide), if_neg (by decide), if_neg (by decide), if_neg (by decide),
              if_neg (by decide), if_neg (by decide), ← List.cons_append, ← hser]
            exact parseNumber_serInt n rest hsafe
          · obtain ⟨d, ds, hds⟩ := List.exists_cons_of_ne_nil (natDigits_ne_nil n.toNat)
            have hd : isDigitChar d = true :=
              natDigits_digits n.toNat d (by rw [hds]; exact List.mem_cons_self d ds)
            obtain ⟨e1, e2, e3, e4, e5, e6⟩ := digit_dispatch hd
            have hser : serInt n = d :: ds := by
              unfold serInt
              rw [if_neg hn, hds]
            have hskip : skipWs (serVal (JVal.jint n) ++ rest) = d :: (ds ++ rest) := by
              show skipWs (serInt n ++ rest) = _
              rw [hser, List.cons_append]
              exact skipWs_cons_not_ws _ (digit_not_ws hd) _
            rw [parseVal_step f _ _ _ hskip]
            unfold parseValHead
            rw [if_neg e1, if_neg e2, if_neg e3, if_neg e4, if_neg e5, if_neg e6,
              ← List.cons_append, ← hser]
            exact parseNumber_serInt n rest hsafe
      | jfrac neg ip d fp =>
          cases neg with
          | true =>
              have hser : serVal (JVal.jfrac true ip d fp)
                  = '-' :: (natDigits ip ++ '.' :: (d :: fp).map (fun x => digitChar x.val)) := by
                show (if true then ['-'] else []) ++ natDigits ip
                    ++ '.' :: (d :: fp).map (fun x => digitChar x.val) = _
                rw [show (if true then ['-'] else ([] : List Char)) = ['-'] from rfl]
                simp only [List.cons_append, List.nil_append]
              have hskip : skipWs (serVal (JVal.jfrac true ip d fp) ++ rest)
                  = '-' :: (natDigits ip
                      ++ '.' :: ((d :: fp).map (fun x => digitChar x.val) ++ rest)) := by
                rw [hser]
                simp only [List.cons_append, List.append_assoc]
                exact skipWs_cons_not_ws _ (by decide) _
              rw [parseVal_step f _ _ _ hskip]
              unfold parseValHead
              rw [if_neg (by decide), if_neg (by decide), if_neg (by decide), if_neg (by decide),
                if_neg (by decide), if_neg (by decide)]
              exact parseNumber_serFrac_neg ip d fp rest hsafe
          | false =>
              obtain ⟨d0, ds, hds⟩ := List.exists_cons_of_ne_nil (natDigits_ne_nil ip)
              have hd0 : isDigitChar d0 = true :=
                natDigits_digits ip d0 (by rw [hds]; exact List.mem_cons_self d0 ds)
              obtain ⟨e1, e2, e3, e4, e5, e6⟩ := digit_dispatch hd0
              have hser : serVal (JVal.jfrac false ip d fp)
                  = natDigits ip ++ '.' :: (d :: fp).map (fun x => digitChar x.val) := by
                show (if false then ['-'] else []) ++ natDigits ip
                    ++ '.' :: (d :: fp).map (fun x => digitChar x.val) = _
                rw [show (if false then ['-'] else ([] : List Char)) = [] from rfl,
                  List.nil_append]
              have hskip : skipWs (serVal (JVal.jfrac false ip d fp) ++ rest)
                  = d0 :: (ds ++ '.' :: ((d :: fp).map (fun x => digitChar x.val) ++ rest)) := by
                rw [hser, hds]
                simp only [List.cons_append, List.append_assoc]
                exact skipWs_cons_not_ws _ (digit_not_ws hd0) _
              rw [parseVal_step f _ _ _ hskip]
              unfold parseValHead
              rw [if_neg e1, if_neg e2, if_neg e3, if_neg e4, if_neg e5, if_neg e6]
              rw [show d0 :: (ds ++ '.' :: ((d :: fp).map (fun x => digitChar x.val) ++ rest))
                  = natDigits ip ++ '.' :: ((d :: fp).map (fun x => digitChar x.val) ++ rest) from
                by rw [hds, List.cons_append]]
              exact parseNumber_serFrac_pos ip d fp rest hsafe
      | jstr s =>
          have hskip : skipWs (serVal (JVal.jstr s) ++ rest)
              = '"' :: ((s.map serializeCodepoint).flatten ++ '"' :: rest) := by
            show skipWs (('"' :: ((s.map serializeCodepoint).flatten ++ ['"'])) ++ rest) = _
            simp only [List.cons_append, List.append_assoc, List.nil_append]
            exact skipWs_cons_not_ws _ (by decide) _
          rw [parseVal_step f _ _ _ hskip]
          unfold parseValHead
          rw [if_neg (by decide), if_neg (by decide), if_neg (by decide), if_pos rfl]
          have hlen : s.length
              < ((s.map serializeCodepoint).flatten ++ '"' :: rest).length + 1 := by
            have := strBody_length s
            simp only [List.length_append, List.length_cons]
            omega
          rw [parseStrBody_ser s _ rest hlen]
          rfl
      | jarr xs =>
          cases xs with
          | nil => rfl
          | cons v2 xs2 =>
              have hsz : sizeM (JMems.cons v2 xs2) ≤ f := by
                simp only [sizeV] at hf
                omega
              have hskip : skipWs (serVal (JVal.jarr (JMems.cons v2 xs2)) ++ rest)
                  = '[' :: (serVal v2 ++ (serMemsTail xs2 ++ (']' :: rest))) := by
                show skipWs (('[' :: (serVal v2 ++ serMemsTail xs2 ++ [']'])) ++ rest) = _
                simp only [List.cons_append, List.append_assoc, List.nil_append]
                exact skipWs_cons_not_ws _ (by decide) _
              rw [parseVal_step f _ _ _ hskip]
              unfold parseValHead
              rw [if_neg (by decide), if_neg (by decide), if_neg (by decide), if_neg (by decide),
                if_pos rfl]
              obtain ⟨c2, t2, hv2, hws2, hbr2, _⟩ := serVal_head_spec v2
              have hskip2 : skipWs (serVal v2 ++ (serMemsTail xs2 ++ (']' :: rest)))
                  = c2 :: (t2 ++ (serMemsTail xs2 ++ (']' :: rest))) := by
                rw [hv2, List.cons_append]
                exact skipWs_cons_not_ws _ hws2 _
              rw [hskip2, arrCase_cons, if_neg hbr2, ← List.cons_append, ← hv2]
              rw [parseMems_ser v2 xs2 rest f hsz]
              rfl
      | jobj kvs =>
          cases kvs with
          | nil => rfl
          | cons k v2 kvs2 =>
              have hsz : sizeP (JPairs.cons k v2 kvs2) ≤ f := by
                simp only [sizeV] at hf
                omega
              have hskip : skipWs (serVal (JVal.jobj (JPairs.cons k v2 kvs2)) ++ rest)
                  = '\x7b' :: (serStr k
                      ++ (':' :: (serVal v2 ++ (serPairsTail kvs2 ++ ('\x7d' :: rest))))) := by
                show skipWs (('\x7b' :: (serStr k ++ ':' :: serVal v2 ++ serPairsTail kvs2
                    ++ ['\x7d'])) ++ rest) = _
                simp only [List.cons_append, List.append_assoc, List.nil_append]
                exact skipWs_cons_not_ws _ (by decide) _
              rw [parseVal_step f _ _ _ hskip]
              unfold parseValHead
              rw [if_neg (by decide), if_neg (by decide), if_neg (by decide), if_neg (by decide),
                if_neg (by decide), if_pos rfl]
              have hfold : serStr k
                  ++ (':' :: (serVal v2 ++ (serPairsTail kvs2 ++ ('\x7d' :: rest))))
                  = '"' :: ((k.map serializeCodepoint).flatten
                      ++ '"' :: (':' :: (serVal v2 ++ (serPairsTail kvs2 ++ ('\x7d' :: rest))))) := by
                show ('"' :: ((k.map serializeCodepoint).flatten ++ ['"'])) ++ _ = _
                simp only [List.cons_append, List.append_assoc, List.nil_append]
              have hskip2 : skipWs (serStr k
                  ++ (':' :: (serVal v2 ++ (serPairsTail kvs2 ++ ('\x7d' :: rest)))))
                  = '"' :: ((k.map serializeCodepoint).flatten
                      ++ '"' :: (':' :: (serVal v2 ++ (serPairsTail kvs2 ++ ('\x7d' :: rest))))) := by
                rw [hfold]
                exact skipWs_cons_not_ws _ (by decide) _
              rw [hskip2, objCase_cons, if_neg (by decide), ← hfold]
              rw [parsePairs_ser k v2 kvs2 rest f hsz]
              rfl
termination_by fuel

theorem parseMems_ser (v : JVal) (xs : JMems) (rest : List Char) (fuel : Nat)
    (hf : sizeM (JMems.cons v xs) ≤ fuel) :
    parseMems fuel (serVal v ++ (serMemsTail xs ++ (']' :: rest)))
      = some (JMems.cons v xs, rest) := by
  cases fuel with
  | zero => exact absurd hf (by simp only [sizeM]; omega)
  | succ f =>
      have h1 : sizeV v ≤ f := by
        simp only [sizeM] at hf
        omega
      simp only [parseMems]
      rw [parseVal_ser v _ f h1 (numSafe_memsTail xs rest), Option.some_bind]
      show memsStep (fun s1 => parseMems f s1) v (skipWs (serMemsTail xs ++ (']' :: rest)))
        = some (JMems.cons v xs, rest)
      cases xs with
      | nil =>
          rw [show serMemsTail JMems.nil ++ (']' :: rest) = ']' :: rest from rfl,
            skipWs_cons_not_ws ']' rfl _, memsStep_cons, if_neg (by decide), if_pos rfl]
      | cons v2 xs2 =>
          have h2 : sizeM (JMems.cons v2 xs2) ≤ f := by
            simp only [sizeM] at hf ⊢
            omega
          rw [show serMemsTail (JMems.cons v2 xs2) ++ (']' :: rest)
              = ',' :: (serVal v2 ++ (serMemsTail xs2 ++ (']' :: rest))) from by
            show (',' :: (serVal v2 ++ serMemsTail xs2)) ++ (']' :: rest) = _
            simp only [List.cons_append, List.append_assoc]]
          rw [skipWs_cons_not_ws ',' rfl _, memsStep_cons, if_pos rfl]
          show Option.map (fun r => (JMems.cons v r.1, r.2))
              (parseMems f (serVal v2 ++ (serMemsTail xs2 ++ (']' :: rest))))
            = some (JMems.cons v (JMems.cons v2 xs2), rest)
          rw [parseMems_ser v2 xs2 rest f h2]
          rfl
termination_by fuel

theorem parsePairs_ser (k : JStr) (v : JVal) (kvs : JPairs) (rest : List Char) (fuel : Nat)
    (hf : sizeP (JPairs.cons k v kvs) ≤ fuel) :
    parsePairs fuel (serStr k ++ (':' :: (serVal v ++ (serPairsTail kvs ++ ('\x7d' :: rest)))))
      = some (JPairs.cons k v kvs, rest) := by
  cases fuel with
  | zero => exact absurd hf (by simp only [sizeP]; omega)
  | succ f =>
      have h1 : sizeV v ≤ f := by
        simp only [sizeP] at hf
        omega
      have hfold : serStr k ++ (':' :: (serVal v ++ (serPairsTail kvs ++ ('\x7d' :: rest))))
          = '"' :: ((k.map serializeCodepoint).flatten
              ++ '"' :: (':' :: (serVal v ++ (serPairsTail kvs ++ ('\x7d' :: rest))))) := by
        show ('"' :: ((k.map serializeCodepoint).flatten ++ ['"'])) ++ _ = _
        simp only [List.cons_append, List.append_assoc, List.nil_append]
      have hskip : skipWs (serStr k
          ++ (':' :: (serVal v ++ (serPairsTail kvs ++ ('\x7d' :: rest)))))
          = '"' :: ((k.map serializeCodepoint).flatten
              ++ '"' :: (':' :: (serVal v ++ (serPairsTail kvs ++ ('\x7d' :: rest))))) := by
        rw [hfold]
        exact skipWs_cons_not_ws _ (by decide) _
      rw [parsePairs_step f _ _ hskip]
      have hlen : k.length < ((k.map serializeCodepoint).flatten
          ++ '"' :: (':' :: (serVal v ++ (serPairsTail kvs ++ ('\x7d' :: rest))))).length + 1 := by
        have := strBody_length k
        simp only [List.length_append, List.length_cons]
        omega
      rw [parseStrBody_ser k _ _ hlen, Option.some_bind]
      show pairsAfterKey (fun s1 => parseVal f s1) (fun s1 => parsePairs f s1) k
          (skipWs (':' :: (serVal v ++ (serPairsTail kvs ++ ('\x7d' :: rest)))))
        = some (JPairs.cons k v kvs, rest)
      rw [skipWs_cons_not_ws ':' rfl _, pairsAfterKey_cons, if_pos rfl]
      show (parseVal f (serVal v ++ (serPairsTail kvs ++ ('\x7d' :: rest)))).bind
          (fun rv => pairsAfterVal (fun s1 => parsePairs f s1) k rv.1 (skipWs rv.2))
        = some (JPairs.cons k v kvs, rest)
      rw [parseVal_ser v _ f h1 (numSafe_pairsTail kvs rest), Option.some_bind]
      show pairsAfterVal (fun s1 => parsePairs f s1) k v
          (skipWs (serPairsTail kvs ++ ('\x7d' :: rest)))
        = some (JPairs.cons k v kvs, rest)
      cases kvs with
      | nil =>
          rw [show serPairsTail JPairs.nil ++ ('\x7d' :: rest) = '\x7d' :: rest from rfl,
            skipWs_cons_not_ws '\x7d' rfl _, pairsAfterVal_cons, if_neg (by decide), if_pos rfl]
      | cons k2 v2 kvs2 =>
          have h2 : sizeP (JPairs.cons k2 v2 kvs2) ≤ f := by
            simp only [sizeP] at hf ⊢
            omega
          rw [show serPairsTail (JPairs.cons k2 v2 kvs2) ++ ('\x7d' :: rest)
              = ',' :: (serStr k2
                  ++ (':' :: (serVal v2 ++ (serPairsTail kvs2 ++ ('\x7d' :: rest))))) from by
            show (',' :: (serStr k2 ++ ':' :: serVal v2 ++ serPairsTail kvs2))
                ++ ('\x7d' :: rest) = _
            simp only [List.cons_append, List.append_assoc]]
          rw [skipWs_cons_not_ws ',' rfl _, pairsAfterVal_cons, if_pos rfl]
          show Option.map (fun r => (JPairs.cons k v r.1, r.2))
              (parsePairs f (serStr k2
                ++ (':' :: (serVal v2 ++ (serPairsTail kvs2 ++ ('\x7d' :: rest))))))
            = some (JPairs.cons k v (JPairs.cons k2 v2 kvs2), rest)
          rw [parsePairs_ser k2 v2 kvs2 rest f h2]
          rfl
termination_by fuel

end

/-! ### The document round trip -/

mutual

theorem sizeV_le (v : JVal) : sizeV v ≤ (serVal v).length := by
  cases v with
  | jnull => simp [sizeV, serVal]
  | jbool b => cases b <;> simp [sizeV, serVal]
  | jint n =>
      simp only [sizeV]
      have hne : serInt n ≠ [] := by
        unfold serInt
        split
        · simp
        · exact natDigits_ne_nil _
      exact List.length_pos.mpr hne
  | jfrac neg ip d fp =>
      cases neg <;>
        simp only [sizeV, serVal, List.length_append, List.length_cons] <;>
        omega
  | jstr s =>
      rw [show sizeV (JVal.jstr s) = 1 from rfl,
        show serVal (JVal.jstr s) = '"' :: ((s.map serializeCodepoint).flatten ++ ['"']) from rfl]
      simp
  | jarr xs =>
      cases xs with
      | nil => simp [sizeV, sizeM, serVal]
      | cons v2 xs2 =>
          have h1 := sizeV_le v2
          have h2 := sizeM_le xs2
          simp only [sizeV, sizeM, serVal, List.length_cons, List.length_append]
          omega
  | jobj kvs =>
      cases kvs with
      | nil => simp [sizeV, sizeP, serVal]
      | cons k v2 kvs2 =>
          have h1 := sizeV_le v2
          have h2 := sizeP_le kvs2
          simp only [sizeV, sizeP, serVal, List.length_cons, List.length_append]
          omega

theorem sizeM_le (xs : JMems) : sizeM xs ≤ (serMemsTail xs).length := by
  cases xs with
  | nil => simp [sizeM, serMemsTail]
  | cons v2 xs2 =>
      have h1 := sizeV_le v2
      have h2 := sizeM_le xs2
      simp only [sizeM, serMemsTail, List.length_cons, List.length_append]
      omega

theorem sizeP_le (kvs : JPairs) : sizeP kvs ≤ (serPairsTail kvs).length := by
  cases kvs with
  | nil => simp [sizeP, serPairsTail]
  | cons k v2 kvs2 =>
      have h1 := sizeV_le v2
      have h2 := sizeP_le kvs2
      simp only [sizeP, serPairsTail, List.length_cons, List.length_append]
      omega

end

theorem loads_serVal (v : JVal) : loads (serVal v) = some v := by
  have hsize := sizeV_le v
  have h1 : parseVal ((serVal v).length + 1) (serVal v) = some (v, []) := by
    have h2 := parseVal_ser v [] ((serVal v).length + 1) (by omega) rfl
    rwa [List.append_nil] at h2
  unfold loads
  rw [h1]
  rfl

/-! ### Claims -/

/-- C1: the daily fixed-hour fire claim fails on the code.  At
`09:00:00Z` (t = 32400) with `timezone = "UTC"` and `morning_check_hour = 9`
the spec predicate fires, yet `morning_check` sends nothing: the evaluation
of `datetime.timezone("UTC")` raises `TypeError` (the constructor takes a
`timedelta`, not a string), so the user is skipped by the generic except
branch of every tick. -/
theorem c1_daily_fire_divergence :
    spec_daily_fire_utc 9 32400 = true ∧
    morning_check_user utc_user 32400 true = CheckOutcome.errorSkipped ∧
    evening_review_user utc_user (21 * 3600) true = CheckOutcome.errorSkipped ∧
    morning_check [("1", utc_user)] 32400 (fun _ => true)
      = [("1", CheckOutcome.errorSkipped)] := by
  exact ⟨by decide, rfl, rfl, rfl⟩

/-- C4: the weekly fixed-day-and-hour fire claim fails on the code.  At
Sunday 1970-01-04 18:00:00Z (t = 324000) with `weekly_review_day = "SUN"`
and hour 18 the spec predicate fires, yet the per-user evaluation is skipped
because `datetime.timezone("UTC")` raises `TypeError`; moreover the default
`weekly_review_day` value `"SUNDAY"` is not even a `day_map` key. -/
theorem c4_weekly_fire_divergence :
    spec_weekly_fire_utc 6 18 324000 = true ∧
    weekly_review_check_user sun_user 324000 true = CheckOutcome.errorSkipped ∧
    day_map default_config.weekly_review_day = none ∧
    weekly_review_check [("1", sun_user)] 324000 (fun _ => true)
      = [("1", CheckOutcome.errorSkipped)] := by
  exact ⟨by decide, rfl, rfl, rfl⟩

/-- C2: on a due evaluation whose dispatch boundary succeeds, the message is
dispatched exactly when the drawn sample is below the user's probability,
and in either case `last_activity_check` is set to the evaluation instant
and persisted. -/
theorem c2_activity_dispatch (r : UserRecord) (t : Instant) (sample : Rat)
    (hdue : activity_due r t = true) (_h0 : 0 ≤ sample) (_h1 : sample < 1) :
    ((activity_check_user r t sample true).outcome = CheckOutcome.sent
        ↔ sample < r.config.activity_check_probability) ∧
    (activity_check_user r t sample true).record.last_activity_check = some t ∧
    (activity_check_user r t sample true).saved = true := by
  by_cases hs : sample < r.config.activity_check_probability
  · simp [activity_check_user, hdue, hs]
  · simp [activity_check_user, hdue, hs]

/-- C2 witness: probability 0, no previous check: one evaluation sends
nothing and still sets `last_activity_check` to the invocation time. -/
theorem c2_activity_dispatch_witness :
    activity_due prob0_user 100 = true ∧ (0 : Rat) ≤ 0 ∧ (0 : Rat) < 1 ∧
    (((activity_check_user prob0_user 100 0 true).outcome = CheckOutcome.sent
        ↔ (0 : Rat) < prob0_user.config.activity_check_probability) ∧
      (activity_check_user prob0_user 100 0 true).record.last_activity_check = some 100 ∧
      (activity_check_user prob0_user 100 0 true).saved = true) :=
  ⟨by decide, by decide, by decide,
    c2_activity_dispatch prob0_user 100 0 (by decide) (by decide) (by decide)⟩

/-- C3: the activity check is due exactly when no previous check is recorded
or the elapsed time reaches the configured interval; and after a check at
instant `n`, evaluations at `n`, `n + (m-1)` minutes and `n + m` minutes are
not-due, not-due, due — for any configured probability. -/
theorem c3_activity_due_scenario (m : Nat) (hm : 1 ≤ m) :
    (∀ (r : UserRecord) (t : Instant),
        activity_due r t = true ↔
          r.last_activity_check = none ∨
            ∃ last, r.last_activity_check = some last ∧
              (r.config.activity_check_interval : Int) * 60 ≤ (t : Int) - (last : Int)) ∧
    (∀ (r : UserRecord) (n : Instant),
        r.config.activity_check_interval = m → r.last_activity_check = some n →
          activity_due r n = false ∧
          activity_due r (n + (m - 1) * 60) = false ∧
          activity_due r (n + m * 60) = true) := by
  constructor
  · intro r t
    cases h : r.last_activity_check with
    | none => simp [activity_due, h]
    | some last => simp [activity_due, h]
  · intro r n hint hlast
    refine ⟨?_, ?_, ?_⟩ <;>
      simp [activity_due, hlast, hint, decide_eq_true_eq] <;> omega

/-- C3 witness: interval 30, last check at instant 0: evaluations at 0,
29 minutes and 30 minutes are not-due, not-due, due. -/
theorem c3_activity_due_witness :
    (1 ≤ 30) ∧ checked_user.config.activity_check_interval = 30 ∧
    checked_user.last_activity_check = some 0 ∧
    (activity_due checked_user 0 = false ∧
      activity_due checked_user (0 + (30 - 1) * 60) = false ∧
      activity_due checked_user (0 + 30 * 60) = true) :=
  ⟨by decide, rfl, rfl,
    (c3_activity_due_scenario 30 (by decide)).2 checked_user 0 rfl rfl⟩

/-- C5 counterexample: probability 1, sample 0, no previous check, dispatch
fails (`discord.NotFound`): the code jumps to the except branch *before* the
`last_activity_check` update and `save_data` run, so the already-computed
delta (`last_activity_check = 100`) is discarded, contrary to the claim. -/
theorem c5_delta_discarded_counterexample :
    (activity_check_user prob1_user 100 0 false).outcome = CheckOutcome.userNotFound ∧
    (activity_check_user prob1_user 100 0 false).record.last_activity_check ≠ some 100 ∧
    (activity_check_user prob1_user 100 0 false).saved = false := by
  decide

/-- C5 amended: when the dispatch of a due activity check fails, the state
delta is *discarded*: the record is left unchanged and nothing is
persisted (the failure is caught, so the loop continues with other users). -/
theorem c5_dispatch_failure_drops_delta (r : UserRecord) (t : Instant) (sample : Rat)
    (hdue : activity_due r t = true)
    (hsend : sample < r.config.activity_check_probability) :
    activity_check_user r t sample false = ⟨r, CheckOutcome.userNotFound, false⟩ := by
  simp [activity_check_user, hdue, hsend]

/-- C5 amended witness at a concrete due record with probability 1. -/
theorem c5_dispatch_failure_drops_delta_witness :
    activity_due prob1_user 100 = true ∧
    (0 : Rat) < prob1_user.config.activity_check_probability ∧
    activity_check_user prob1_user 100 0 false
      = ⟨prob1_user, CheckOutcome.userNotFound, false⟩ :=
  ⟨by decide, by decide, c5_dispatch_failure_drops_delta prob1_user 100 0 (by decide) (by decide)⟩

/-- C6: a malformed user (invalid timezone or unknown weekly review day) is
skipped by its own except branch while every other tracked user's evaluation
in the same tick is exactly what it would be without the malformed user. -/
theorem c6_malformed_user_isolated (us₁ us₂ : Store) (bid : String) (bad : UserRecord)
    (t : Instant) (fetchOk : String → Bool)
    (_hbad : datetimeTimezone bad.config.timezone = none ∨
      day_map bad.config.weekly_review_day = none) :
    weekly_review_check (us₁ ++ (bid, bad) :: us₂) t fetchOk
      = weekly_review_check us₁ t fetchOk
        ++ (bid, CheckOutcome.errorSkipped) :: weekly_review_check us₂ t fetchOk ∧
    morning_check (us₁ ++ (bid, bad) :: us₂) t fetchOk
      = morning_check us₁ t fetchOk
        ++ (bid, morning_check_user bad t (fetchOk bid)) :: morning_check us₂ t fetchOk := by
  constructor
  · simp [weekly_review_check, weekly_review_check_user, datetimeTimezone]
  · simp [morning_check]

/-- C6 witness: the malformed user among three tracked users contributes a
skip and leaves both neighbours' evaluations unchanged. -/
theorem c6_malformed_user_isolated_witness :
    (datetimeTimezone bad_user.config.timezone = none ∨
      day_map bad_user.config.weekly_review_day = none) ∧
    weekly_review_check ([("1", sun_user)] ++ ("2", bad_user) :: [("3", utc_user)]) 324000
        (fun _ => true)
      = weekly_review_check [("1", sun_user)] 324000 (fun _ => true)
        ++ ("2", CheckOutcome.errorSkipped)
          :: weekly_review_check [("3", utc_user)] 324000 (fun _ => true) ∧
    morning_check ([("1", sun_user)] ++ ("2", bad_user) :: [("3", utc_user)]) 324000
        (fun _ => true)
      = morning_check [("1", sun_user)] 324000 (fun _ => true)
        ++ ("2", morning_check_user bad_user 324000 true)
          :: morning_check [("3", utc_user)] 324000 (fun _ => true) :=
  ⟨Or.inl rfl,
    (c6_malformed_user_isolated [("1", sun_user)] [("3", utc_user)] "2" bad_user 324000
        (fun _ => true) (Or.inl rfl)).1,
    (c6_malformed_user_isolated [("1", sun_user)] [("3", utc_user)] "2" bad_user 324000
        (fun _ => true) (Or.inl rfl)).2⟩

/-- C7: opting out removes the user's record entirely (no entry with that id
survives, other users untouched), and opting back in stores a fresh record
whose config is the process-wide default, not the prior session's. -/
theorem c7_optout_optin (store : Store) (uid : String) (t : Instant) :
    (stop store uid).lookup uid = none ∧
    (∀ p ∈ stop store uid, p.1 ≠ uid) ∧
    (∀ v, v ≠ uid → (stop store uid).lookup v = store.lookup v) ∧
    (add_user (stop store uid) uid t).lookup uid = some (fresh_record t) ∧
    (fresh_record t).config = default_config := by
  by_cases h : (store.lookup uid).isSome
  · have hstop : stop store uid = store.filter (fun p => decide (p.1 ≠ uid)) := by
      simp [stop, h]
    have hnone : (stop store uid).lookup uid = none := by
      rw [hstop]; exact lookup_filter_out_self store uid
    refine ⟨hnone, ?_, ?_, ?_, rfl⟩
    · intro p hp
      rw [hstop] at hp
      exact of_decide_eq_true (List.mem_filter.mp hp).2
    · intro v hv
      rw [hstop]
      exact lookup_filter_out_other store uid v hv
    · have : add_user (stop store uid) uid t = stop store uid ++ [(uid, fresh_record t)] := by
        simp [add_user, hnone]
      rw [this]
      exact lookup_append_single _ uid _ hnone
  · have hnone : store.lookup uid = none := by
      cases hl : store.lookup uid with
      | none => rfl
      | some r => rw [hl] at h; simp at h
    have hstop : stop store uid = store := by simp [stop, hnone]
    refine ⟨by rw [hstop]; exact hnone, ?_, ?_, ?_, rfl⟩
    · intro p hp
      rw [hstop] at hp
      exact lookup_none_keys store uid hnone p hp
    · intro v _; rw [hstop]
    · have : add_user (stop store uid) uid t = stop store uid ++ [(uid, fresh_record t)] := by
        simp [add_user, hstop, hnone]
      rw [this, hstop]
      exact lookup_append_single _ uid _ hnone

/-- C7 witness: a store holding one customized record for id "7". -/
theorem c7_optout_optin_witness :
    (stop [("7", { fresh_record 1 with
        config := { default_config with morning_check_hour := 6 } })] "7").lookup "7" = none ∧
    (add_user (stop [("7", { fresh_record 1 with
        config := { default_config with morning_check_hour := 6 } })] "7") "7" 5).lookup "7"
      = some (fresh_record 5) ∧
    (fresh_record 5).config = default_config :=
  ⟨(c7_optout_optin [("7", { fresh_record 1 with
      config := { default_config with morning_check_hour := 6 } })] "7" 5).1,
    (c7_optout_optin [("7", { fresh_record 1 with
      config := { default_config with morning_check_hour := 6 } })] "7" 5).2.2.2.1,
    (c7_optout_optin [("7", { fresh_record 1 with
      config := { default_config with morning_check_hour := 6 } })] "7" 5).2.2.2.2⟩

/-- C10: an activity-check evaluation changes at most the
`last_activity_check` field of the evaluated user's record, and inside a
tick each user's evaluation touches only that user's own entry. -/
theorem c10_activity_frame (t : Instant) :
    (∀ (r : UserRecord) (sample : Rat) (ok : Bool),
        (activity_check_user r t sample ok).record.joined_date = r.joined_date ∧
        (activity_check_user r t sample ok).record.config = r.config ∧
        (activity_check_user r t sample ok).record.weekly_plans = r.weekly_plans ∧
        (activity_check_user r t sample ok).record.daily_logs = r.daily_logs ∧
        (activity_check_user r t sample ok).record.last_interaction = r.last_interaction) ∧
    (∀ (us₁ us₂ : Store) (uid : String) (r : UserRecord)
        (sample : String → Rat) (fetchOk : String → Bool),
        activity_check (us₁ ++ (uid, r) :: us₂) t sample fetchOk
          = activity_check us₁ t sample fetchOk
            ++ (uid, (activity_check_user r t (sample uid) (fetchOk uid)).record)
              :: activity_check us₂ t sample fetchOk) := by
  constructor
  · intro r sample ok
    by_cases hdue : activity_due r t = true
    · by_cases hs : sample < r.config.activity_check_probability
      · cases ok <;> simp [activity_check_user, hdue, hs]
      · simp [activity_check_user, hdue, hs]
    · simp [activity_check_user, hdue]
  · intro us₁ us₂ uid r sample fetchOk
    simp [activity_check]

/-- C8 counterexample: a concrete LLM response carrying a delete directive.
Routing leaves the memory store untouched, while actually applying the
directive (as `_process_memory_instructions` would) empties it — so the
router does not apply memory-update directives. -/
theorem c8_memory_not_applied_counterexample :
    (on_message_route ("kk got it MEMORY_UPDATE: \x7b\"delete\": [\"pasta\"]\x7d".data)
        [("pasta", "likes pasta")]).2.1 = [("pasta", "likes pasta")] ∧
    process_memory_instructions ⟨none, none, some ["pasta"]⟩ [("pasta", "likes pasta")] = [] ∧
    ([("pasta", "likes pasta")] : Memory) ≠ [] := by
  refine ⟨rfl, rfl, by decide⟩

/-- C8 amended: the router strips the memory-update directive from the
outgoing text but never applies it — the memory store passes through
unchanged (the application site is an unimplemented `TODO` in
`on_message`); the add/update/delete application routine
`_process_memory_instructions` does apply directives when invoked, but this
path never invokes it. -/
theorem c8_directive_stripped_not_applied :
    (∀ (resp : List Char) (mem : Memory), (on_message_route resp mem).2.1 = mem) ∧
    (on_message_route ("kk got it MEMORY_UPDATE: \x7b\"delete\": [\"pasta\"]\x7d".data)
        [("pasta", "likes pasta")]).1 = "kk got it".data ∧
    process_memory_instructions ⟨none, none, some ["pasta"]⟩ [("pasta", "likes pasta")] = [] := by
  exact ⟨fun resp mem => rfl, rfl, rfl⟩

/-- C9: for every persisted user-data document, loading it and saving the
loaded mapping without mutation reproduces a content-equivalent document:
the saved text parses back to exactly the loaded value, so its content
equals the original document's (byte formatting aside). -/
theorem c9_load_save_roundtrip (doc : List Char) (v : JVal)
    (h : load_data (some doc) = some v) :
    loads (save_data v) = some v ∧ loads (save_data v) = load_data (some doc) := by
  have hr : loads (save_data v) = some v := loads_serVal v
  exact ⟨hr, by rw [hr, h]⟩

/-- C9 witness at the document `\x7b\x7d` (an empty user mapping). -/
theorem c9_load_save_roundtrip_witness :
    load_data (some ("\x7b\x7d".data)) = some (JVal.jobj JPairs.nil) ∧
    loads (save_data (JVal.jobj JPairs.nil)) = some (JVal.jobj JPairs.nil) ∧
    loads (save_data (JVal.jobj JPairs.nil)) = load_data (some ("\x7b\x7d".data)) :=
  ⟨rfl,
    (c9_load_save_roundtrip ("\x7b\x7d".data) (JVal.jobj JPairs.nil) rfl).1,
    (c9_load_save_roundtrip ("\x7b\x7d".data) (JVal.jobj JPairs.nil) rfl).2⟩

end ArjunBot
